import Mathlib

/-!
Verification development for the container-source-policy pin pipeline.

This file shallowly embeds the Go code of the repository:
* `internal/registry` (`GetDigest`, `IsNotFoundOrAuthError`) and
  `internal/pin` (`GeneratePolicy`, `WritePolicy`) from their sources;
* `internal/dhi` (`CanMapToDHI`, `MapToDHI`) from its source;
* the reference type and `ParseNormalizedNamed` of the external
  `containers/image/v5/docker/reference` library, modelled from that
  library's documented normalization and validation behaviour;
* the `internal/policy` document type, which is not among the provided
  sources, modelled from the spec.

Dockerfile parsing (`internal/dockerfile.ParseFile`, also not among the
provided sources) is abstracted as a function parameter: the theorems
quantify over every possible extraction result.
-/

deriving instance DecidableEq for Except

/-- A parsed, normalized docker image reference, as represented by the
`containers/image/v5/docker/reference` library: registry domain, repository
path, optional tag, optional digest.  A reference satisfies the Go
interface `reference.Tagged` iff `tag` is `some`, and `reference.Digested`
iff `digest` is `some`. -/
structure Reference where
  domain : String
  path : String
  tag : Option String
  digest : Option String
deriving DecidableEq, Repr

/-- Lowercase letter or decimal digit: the characters allowed at the
boundaries of a repository path component. -/
def isLowerNum (c : Char) : Bool :=
  c.isLower || c.isDigit

/-- Characters allowed inside a repository path component
(`[a-z0-9._-]`, separators included). -/
def validCompChar (c : Char) : Bool :=
  c.isLower || c.isDigit || c = '.' || c = '_' || c = '-'

/-- Hexadecimal digit. -/
def isHexChar (c : Char) : Bool :=
  c.isDigit || ('a' ≤ c && c ≤ 'f') || ('A' ≤ c && c ≤ 'F')

/-- Characters allowed inside a tag (`[A-Za-z0-9._-]`). -/
def validTagChar (c : Char) : Bool :=
  c.isAlphanum || c = '_' || c = '.' || c = '-'

/-- Split a character list at the first occurrence of `c`: returns the
part before it and, when `c` occurs, the part after it. -/
def splitFirst (c : Char) : List Char → List Char × Option (List Char)
  | [] => ([], none)
  | x :: xs =>
    if x = c then ([], some xs)
    else
      let r := splitFirst c xs
      (x :: r.1, r.2)

/-- Split a character list at every occurrence of `c` (like Go
`strings.Split`): always returns a nonempty list of chunks. -/
def splitAll (c : Char) : List Char → List (List Char)
  | [] => [[]]
  | x :: xs =>
    match splitAll c xs with
    | [] => [[]]
    | h :: t => if x = c then [] :: h :: t else (x :: h) :: t

/-- A valid repository path component: nonempty, `[a-z0-9._-]` characters,
beginning and ending with a lowercase alphanumeric character. -/
def validComponent (l : List Char) : Bool :=
  match l.head?, l.getLast? with
  | some c, some d => isLowerNum c && isLowerNum d && l.all validCompChar
  | _, _ => false

/-- A valid repository path: slash-separated valid components. -/
def validPath (l : List Char) : Bool :=
  (splitAll '/' l).all validComponent

/-- A valid tag: `[\w][\w.-]{0,127}`. -/
def validTag (l : List Char) : Bool :=
  match l.head? with
  | some c => (c.isAlphanum || c = '_') && l.all validTagChar && decide (l.length ≤ 128)
  | none => false

/-- A registry domain, loosely validated: nonempty and free of the
separators that delimit it inside a reference string. -/
def validDomainB (l : List Char) : Bool :=
  !l.isEmpty && l.all (fun c => c ≠ '/' && c ≠ '@')

/-- A bare 64-character hexadecimal string (rejected as a repository name
by the reference parser, since it would be ambiguous with an identifier). -/
def isHex64 (l : List Char) : Bool :=
  l.length == 64 && l.all isHexChar

/-- Characters allowed in a digest algorithm name. -/
def isAlgChar (c : Char) : Bool :=
  c.isLower || c.isDigit

/-- A valid digest algorithm string: `[a-z0-9]` characters with `.+_-`
separators, starting and ending alphanumeric. -/
def validAlg (l : List Char) : Bool :=
  match l.head?, l.getLast? with
  | some c, some d =>
    isAlgChar c && isAlgChar d &&
      l.all (fun x => isAlgChar x || x = '.' || x = '+' || x = '_' || x = '-')
  | _, _ => false

/-- Validity of an `algorithm:hex` digest string, following
`go-digest`'s `digest.Parse`: the hex part is at least 32 hex characters,
and for the known algorithms its length must match the algorithm. -/
def validGoDigestChars (l : List Char) : Bool :=
  match splitFirst ':' l with
  | (alg, some hex) =>
    validAlg alg && decide (32 ≤ hex.length) && hex.all isHexChar &&
      (if alg = "sha256".data then hex.length == 64
       else if alg = "sha384".data then hex.length == 96
       else if alg = "sha512".data then hex.length == 128
       else true)
  | (_, none) => false

/-- Model of `digest.Parse` from `go-digest`: returns the digest string
itself when well formed, an error otherwise. -/
def parseDigest (s : String) : Except String String :=
  if validGoDigestChars s.data then .ok s else .error "invalid checksum digest format"

/-- Model of `reference.WithDigest`: attach a digest to a named reference,
keeping any tag; fails on a malformed digest. -/
def withDigest (r : Reference) (d : String) : Except String Reference :=
  if validGoDigestChars d.data then .ok { r with digest := some d }
  else .error "invalid digest format"

/-- Model of the `String()` method of a normalized named reference:
`domain/path[:tag][@digest]`. -/
def refString (r : Reference) : String :=
  r.domain ++ "/" ++ r.path ++
    (match r.tag with | some t => ":" ++ t | none => "") ++
    (match r.digest with | some d => "@" ++ d | none => "")

/-- Model of `splitDockerDomain` from the reference library: the part
before the first `/` is the domain if it contains `.` or `:` or is
`localhost`, otherwise the default domain `docker.io` applies; the legacy
`index.docker.io` domain is canonicalized, and a single-component
`docker.io` remainder receives the `library/` prefix. -/
def splitDockerDomain (l : List Char) : List Char × List Char :=
  let p :=
    match splitFirst '/' l with
    | (_, none) => ("docker.io".data, l)
    | (pre, some post) =>
      if pre.contains '.' || pre.contains ':' || pre = "localhost".data then (pre, post)
      else ("docker.io".data, l)
  let dom := if p.1 = "index.docker.io".data then "docker.io".data else p.1
  let rem := if dom = "docker.io".data && !p.2.contains '/' then "library/".data ++ p.2 else p.2
  (dom, rem)

/-- Model of `reference.ParseNormalizedNamed`: reject bare 64-hex
identifiers, split off the domain (applying docker.io normalization),
split off the digest at `@` and the tag at `:`, and validate every part. -/
def parseRefChars (l : List Char) : Except String Reference :=
  if isHex64 l then .error "invalid repository name, cannot specify 64-byte hexadecimal strings"
  else
    let dr := splitDockerDomain l
    let nt := splitFirst '@' dr.2
    let pt := splitFirst ':' nt.1
    let tagOk := match pt.2 with | none => true | some t => validTag t
    let digOk := match nt.2 with | none => true | some d => validGoDigestChars d
    if validDomainB dr.1 && validPath pt.1 && tagOk && digOk then
      .ok { domain := String.mk dr.1, path := String.mk pt.1,
            tag := pt.2.map String.mk, digest := nt.2.map String.mk }
    else .error "invalid reference format"

/-- Model of `reference.ParseNormalizedNamed`, at the string boundary. -/
def parseNormalizedNamed (s : String) : Except String Reference :=
  parseRefChars s.data

/-- Well-formedness of a `Reference` record: each field satisfies the
grammar that the reference library guarantees for parsed references. -/
def Reference.wf (r : Reference) : Bool :=
  validDomainB r.domain.data && validPath r.path.data &&
    (match r.tag with | none => true | some t => validTag t.data) &&
    (match r.digest with | none => true | some d => validGoDigestChars d.data)

/-- From `internal/dhi`: the sentinel error returned when an image
reference cannot be mapped to a Docker Hardened Images equivalent. -/
def errNotEligible : String := "image not eligible for DHI mapping"

/-- From `internal/dhi` `CanMapToDHI`: true iff the reference's domain is
the canonical Docker Hub domain `docker.io` and its path begins with the
official-image prefix `library/`. -/
def CanMapToDHI (r : Reference) : Bool :=
  r.domain == "docker.io" && "library/".data.isPrefixOf r.path.data

/-- Model of Go `strings.TrimPrefix`: drop `p` from the front of `l` when
it is a prefix, otherwise return `l` unchanged. -/
def trimPre (p l : List Char) : List Char :=
  if p.isPrefixOf l then l.drop p.length else l

/-- From `internal/dhi` `MapToDHI`: rewrite an eligible `docker.io`
library reference to its `dhi.io` equivalent, stripping the `library/`
prefix and keeping the tag when present; ineligible references yield
`errNotEligible`. -/
def MapToDHI (r : Reference) : Except String Reference :=
  if !CanMapToDHI r then .error errNotEligible
  else
    let dhiPath := trimPre "library/".data r.path.data
    let dhiRefStr := "dhi.io".data ++ '/' :: dhiPath ++
      (match r.tag with | some t => ':' :: t.data | none => [])
    parseNormalizedNamed (String.mk dhiRefStr)

/-- Lowercasing of a string, modelling `strings.ToLower` on the character
sets that occur in registry error text. -/
def toLowerStr (s : String) : String :=
  String.mk (s.data.map Char.toLower)

/-- Go `strings.Contains p s` is infix containment. -/
def containsSub (p s : String) : Bool :=
  decide (p.data <:+: s.data)

/-- From `internal/registry` `IsNotFoundOrAuthError`, translated clause by
clause: a `nil` error (here `none`) is not a fallback trigger; otherwise
the lowercased error text is matched for the HTTP status codes 401, 403,
404 and then for the textual markers "manifest unknown", "not found",
"unauthorized", "authentication required", "denied", "does not exist". -/
def isNotFoundOrAuthError (e : Option String) : Bool :=
  match e with
  | none => false
  | some s =>
    let es := toLowerStr s
    (containsSub "401" es || containsSub "403" es || containsSub "404" es) ||
      (containsSub "manifest unknown" es || containsSub "not found" es ||
       containsSub "unauthorized" es || containsSub "authentication required" es ||
       containsSub "denied" es || containsSub "does not exist" es)

/-- The data the registry transport hands back for a manifest request: the
raw manifest bytes together with whatever content digest the transport
itself claims for them (e.g. a `Docker-Content-Digest` header). -/
structure ManifestResponse where
  manifestBytes : List Nat
  claimedDigest : String
deriving DecidableEq, Repr

/-- From `internal/registry` `GetDigest`, the normalization step: a
reference carrying neither a tag nor a digest receives the default tag
`latest` (`reference.WithTag(ref, "latest")`, which cannot fail for the
fixed valid tag); any other reference is left unchanged. -/
def normalizeRef (r : Reference) : Reference :=
  if r.tag = none ∧ r.digest = none then { r with tag := some "latest" } else r

/-- From `internal/registry` `GetDigest`: normalize the reference, fetch
the manifest over the transport (`fetchManifest` abstracts the image
source opened against the reference's registry), and return
`sha256:<hex>` computed from the raw manifest bytes by `manifest.Digest`
(abstracted as the hex function `sha256Hex`); the digest the transport
claims is never consulted. -/
def registryGetDigest (fetchManifest : Reference → Except String ManifestResponse)
    (sha256Hex : List Nat → String) (r : Reference) : Except String String :=
  let nref := normalizeRef r
  match fetchManifest nref with
  | .error e => .error ("failed to get manifest for " ++ refString nref ++ ": " ++ e)
  | .ok resp => .ok ("sha256:" ++ sha256Hex resp.manifestBytes)

/-- A raw image reference extracted from a Dockerfile: the original text
as written, and the parsed named reference. -/
structure ImageRef where
  original : String
  ref : Reference
deriving DecidableEq, Repr

/-- Modelled from the spec: `internal/policy` is not among the provided
sources.  Per the spec, a policy rule consists of a selector
(`scheme + Original`), the convert action, and an update carrying the new
identifier; the docker-image scheme prefixes both identifiers. -/
structure PolicyRule where
  selectorIdentifier : String
  updatesIdentifier : String
deriving DecidableEq, Repr

/-- Modelled from the spec: a policy document is an ordered sequence of
policy rules. -/
structure Policy where
  rules : List PolicyRule
deriving DecidableEq, Repr

/-- Modelled from the spec: `AddPinRule(original, pinned)` appends exactly
one rule whose selector is the original reference under the docker-image
scheme and whose update is the pinned reference under the same scheme. -/
def addPinRule (pol : Policy) (original pinned : String) : Policy :=
  { rules := pol.rules ++
      [{ selectorIdentifier := "docker-image://" ++ original,
         updatesIdentifier := "docker-image://" ++ pinned }] }

/-- The per-reference loop body of `internal/pin` `GeneratePolicy`,
translated statement by statement: skip an already-seen Original (after
which it is marked seen), skip a reference that already carries a digest,
otherwise resolve it (`gd` abstracts `client.GetDigest`), parse the
digest, build the pinned reference and append one pin rule.  Every failure
aborts with an error wrapping the offending reference. -/
def processRefs (gd : Reference → Except String String) :
    List ImageRef → List String → Policy → Except String (List String × Policy)
  | [], seen, pol => .ok (seen, pol)
  | r :: rest, seen, pol =>
    if r.original ∈ seen then
      processRefs gd rest seen pol
    else
      let seen' := seen ++ [r.original]
      if r.ref.digest.isSome then
        processRefs gd rest seen' pol
      else
        match gd r.ref with
        | .error e => .error ("failed to get digest for " ++ r.original ++ ": " ++ e)
        | .ok dstr =>
          match parseDigest dstr with
          | .error e => .error ("failed to parse digest " ++ dstr ++ ": " ++ e)
          | .ok d =>
            match withDigest r.ref d with
            | .error e =>
              .error ("failed to create pinned reference for " ++ r.original ++ ": " ++ e)
            | .ok pinned => processRefs gd rest seen' (addPinRule pol r.original (refString pinned))

/-- The per-file loop of `internal/pin` `GeneratePolicy`: parse each
Dockerfile in order (`parse` abstracts `dockerfile.ParseFile`), wrapping a
parse failure with the offending path, and fold the extracted references
through `processRefs`. -/
def generatePolicyGo (parse : String → Except String (List ImageRef))
    (gd : Reference → Except String String) :
    List String → List String → Policy → Except String (List String × Policy)
  | [], seen, pol => .ok (seen, pol)
  | p :: rest, seen, pol =>
    match parse p with
    | .error e => .error ("failed to parse " ++ p ++ ": " ++ e)
    | .ok refs =>
      match processRefs gd refs seen pol with
      | .error e => .error e
      | .ok sp => generatePolicyGo parse gd rest sp.1 sp.2

/-- `internal/pin` `GeneratePolicy`: run the loops starting from an empty
seen set and an empty policy; on success the complete policy document is
returned, on any failure only the error (no partial document exists). -/
def generatePolicy (parse : String → Except String (List ImageRef))
    (gd : Reference → Except String String) (paths : List String) : Except String Policy :=
  (generatePolicyGo parse gd paths [] { rules := [] }).map (fun sp => sp.2)

/-- The references a parse function yields for one path (empty on a parse
error; only used under the assumption that every parse succeeded). -/
def refsOf (parse : String → Except String (List ImageRef)) (p : String) : List ImageRef :=
  match parse p with | .ok rs => rs | .error _ => []

/-- The full extraction stream: the references of all input files in input
order. -/
def allRefs (parse : String → Except String (List ImageRef)) (paths : List String) :
    List ImageRef :=
  (paths.map (refsOf parse)).flatten

/-- Specification-level recursion: the references that `GeneratePolicy`
pins, i.e. each reference that is the first occurrence of its Original and
does not already carry a digest, in stream order. -/
def pinTargets : List ImageRef → List String → List ImageRef
  | [], _ => []
  | r :: rest, seen =>
    if r.original ∈ seen then pinTargets rest seen
    else if r.ref.digest.isSome then pinTargets rest (seen ++ [r.original])
    else r :: pinTargets rest (seen ++ [r.original])

/-- Specification-level recursion: the Originals in first-seen order,
relative to an already-seen set. -/
def firstSeen : List ImageRef → List String → List String
  | [], _ => []
  | r :: rest, seen =>
    if r.original ∈ seen then firstSeen rest seen
    else r.original :: firstSeen rest (seen ++ [r.original])

/-- Specification-level recursion: the seen set after processing a list of
references, i.e. the input set extended by each newly encountered Original
in order. -/
def seenAfter : List ImageRef → List String → List String
  | [], seen => seen
  | r :: rest, seen =>
    if r.original ∈ seen then seenAfter rest seen
    else seenAfter rest (seen ++ [r.original])

/-- The rules of a policy document whose selector matches a given Original
under the docker-image scheme. -/
def rulesFor (pol : Policy) (o : String) : List PolicyRule :=
  pol.rules.filter (fun r => r.selectorIdentifier == "docker-image://" ++ o)

/-- How many rules a policy document holds for a given Original. -/
def countRulesFor (pol : Policy) (o : String) : Nat :=
  (rulesFor pol o).length

/-- The first extracted reference carrying a given Original. -/
def firstRefFor (o : String) (refs : List ImageRef) : Option ImageRef :=
  refs.find? (fun r => r.original == o)

/-- JSON escaping of a single character (the escapes `encoding/json`
produces for the characters that can occur in reference strings). -/
def jsonEscChar (c : Char) : List Char :=
  if c = '"' then ['\\', '"']
  else if c = '\\' then ['\\', '\\']
  else if c = '\n' then ['\\', 'n']
  else if c = '\t' then ['\\', 't']
  else if c = '\r' then ['\\', 'r']
  else [c]

/-- A JSON string literal. -/
def jsonStr (s : String) : String :=
  "\"" ++ String.mk (s.data.foldr (fun c acc => jsonEscChar c ++ acc) []) ++ "\""

/-- Modelled from the spec: the two-space-indented JSON serialization of
one policy rule, as `encoding/json` with `SetIndent("", "  ")` lays out
the rule struct nested inside the rules array. -/
def ruleJson (r : PolicyRule) : String :=
  "    \x7b\n      \"action\": \"CONVERT\",\n      \"selector\": \x7b\n        \"identifier\": "
    ++ jsonStr r.selectorIdentifier ++
    "\n      \x7d,\n      \"updates\": \x7b\n        \"identifier\": "
    ++ jsonStr r.updatesIdentifier ++
    "\n      \x7d\n    \x7d"

/-- `internal/pin` `WritePolicy`, with the document shape modelled from
the spec: the stable two-space-indented JSON serialization of the whole
document, with the trailing newline `json.Encoder.Encode` appends. -/
def writePolicy (pol : Policy) : String :=
  match pol.rules with
  | [] => "\x7b\n  \"rules\": []\n\x7d\n"
  | rs =>
    "\x7b\n  \"rules\": [\n" ++ String.intercalate ",\n" (rs.map ruleJson) ++
      "\n  ]\n\x7d\n"

/-! ### Claims about the registry client (C5, C6, C8) -/

/-- C5: the digest `GetDigest` returns is computed from the raw manifest
bytes fetched from the registry, independently of any digest value the
transport claims: two transports whose fetched manifest bytes agree yield
the same `algorithm:hex` digest even when their claimed digests differ,
and that digest is `sha256:` followed by the hex hash of the bytes. -/
theorem claim5_digest_from_bytes
    (sha256Hex : List Nat → String)
    (f₁ f₂ : Reference → Except String ManifestResponse)
    (r : Reference) (b : List Nat) (d₁ d₂ : String)
    (h₁ : f₁ (normalizeRef r) = .ok ⟨b, d₁⟩)
    (h₂ : f₂ (normalizeRef r) = .ok ⟨b, d₂⟩) :
    registryGetDigest f₁ sha256Hex r = registryGetDigest f₂ sha256Hex r ∧
      registryGetDigest f₁ sha256Hex r = .ok ("sha256:" ++ sha256Hex b) := by
  constructor <;> simp [registryGetDigest, h₁, h₂]

theorem claim5_witness :
    registryGetDigest (fun _ => .ok ⟨[1, 2], "sha256:claimA"⟩) (fun _ => "deadbeef")
        { domain := "docker.io", path := "library/alpine", tag := some "3.18", digest := none } =
      registryGetDigest (fun _ => .ok ⟨[1, 2], "sha256:claimB"⟩) (fun _ => "deadbeef")
        { domain := "docker.io", path := "library/alpine", tag := some "3.18", digest := none } ∧
    registryGetDigest (fun _ => .ok ⟨[1, 2], "sha256:claimA"⟩) (fun _ => "deadbeef")
        { domain := "docker.io", path := "library/alpine", tag := some "3.18", digest := none } =
      .ok ("sha256:" ++ "deadbeef") :=
  claim5_digest_from_bytes (fun _ => "deadbeef")
    (fun _ => .ok ⟨[1, 2], "sha256:claimA"⟩) (fun _ => .ok ⟨[1, 2], "sha256:claimB"⟩)
    { domain := "docker.io", path := "library/alpine", tag := some "3.18", digest := none }
    [1, 2] "sha256:claimA" "sha256:claimB" rfl rfl

/-- C6: a named reference carrying neither a tag nor a digest is resolved
by `GetDigest` as if tagged with the implicit default tag `latest`; a
reference already carrying a tag or a digest is resolved unchanged, and
`GetDigest` always resolves exactly the normalized reference. -/
theorem claim6_default_tag (r : Reference) :
    (r.tag = none ∧ r.digest = none → normalizeRef r = { r with tag := some "latest" }) ∧
      (r.tag.isSome ∨ r.digest.isSome → normalizeRef r = r) ∧
      ∀ (f : Reference → Except String ManifestResponse) (h : List Nat → String),
        registryGetDigest f h r = registryGetDigest f h (normalizeRef r) := by
  refine ⟨fun hc => ?_, fun hs => ?_, fun f h => ?_⟩
  · simp [normalizeRef, hc.1, hc.2]
  · have : ¬(r.tag = none ∧ r.digest = none) := by
      rcases hs with hs | hs
      · exact fun hc => by simp [hc.1] at hs
      · exact fun hc => by simp [hc.2] at hs
    simp [normalizeRef, this]
  · have hnorm : normalizeRef (normalizeRef r) = normalizeRef r := by
      unfold normalizeRef
      by_cases hc : r.tag = none ∧ r.digest = none
      · simp [hc]
      · simp [hc]
    unfold registryGetDigest
    rw [hnorm]

theorem claim6_witness :
    (normalizeRef { domain := "docker.io", path := "library/alpine", tag := none, digest := none } =
      { domain := "docker.io", path := "library/alpine", tag := some "latest", digest := none }) ∧
    (normalizeRef { domain := "docker.io", path := "library/node", tag := some "20", digest := none } =
      { domain := "docker.io", path := "library/node", tag := some "20", digest := none }) := by
  constructor
  · exact (claim6_default_tag
      { domain := "docker.io", path := "library/alpine", tag := none, digest := none }).1
      ⟨rfl, rfl⟩
  · exact ((claim6_default_tag
      { domain := "docker.io", path := "library/node", tag := some "20", digest := none }).2.1
      (Or.inl rfl))

/-- C8 counterexample: the claim's trigger set is wrong on both sides.
The code does not treat the bare marker "name unknown" as a fallback
trigger (the claim says it does), while it does treat "image not found"
as one (the claim's marker set excludes it, so per the claim it should
stay fatal). -/
theorem claim8_counterexample :
    isNotFoundOrAuthError (some "name unknown") = false ∧
      isNotFoundOrAuthError (some "image not found") = true := by
  constructor <;> decide

/-- The markers whose case-insensitive containment triggers the
hardened-mirror silent fallback, as the code actually checks them. -/
def fallbackMarkers : List String :=
  ["401", "403", "404", "manifest unknown", "not found", "unauthorized",
   "authentication required", "denied", "does not exist"]

/-- Restatement of the amended C8 trigger condition in the spec's words: a
non-nil error whose text, case-insensitively, contains one of the nine
markers. -/
def specFallbackTrigger (e : Option String) : Bool :=
  match e with
  | none => false
  | some s => fallbackMarkers.any (fun m => containsSub m (toLowerStr s))

/-- C8 amended: `IsNotFoundOrAuthError` returns true for exactly those
non-nil errors whose text, case-insensitively, contains 401, 403 or 404,
or one of the textual markers "manifest unknown", "not found",
"unauthorized", "authentication required", "denied", "does not exist";
every other error stays fatal. -/
theorem claim8_amended (e : Option String) :
    isNotFoundOrAuthError e = specFallbackTrigger e := by
  cases e with
  | none => rfl
  | some s =>
    simp [isNotFoundOrAuthError, specFallbackTrigger, fallbackMarkers, Bool.or_assoc]

/-! ### Splitting lemmas for the reference parser -/

lemma splitFirst_not_mem (c : Char) (l : List Char) (h : c ∉ l) :
    splitFirst c l = (l, none) := by
  induction l with
  | nil => rfl
  | cons x xs ih =>
    have hxc : ¬x = c := fun he => h (he ▸ List.mem_cons_self x xs)
    have hcx : c ∉ xs := fun hm => h (List.mem_cons_of_mem x hm)
    simp [splitFirst, hxc, ih hcx]

lemma splitFirst_append (c : Char) (pre post : List Char) (h : c ∉ pre) :
    splitFirst c (pre ++ c :: post) = (pre, some post) := by
  induction pre with
  | nil => simp [splitFirst]
  | cons x xs ih =>
    have hxc : ¬x = c := fun he => h (he ▸ List.mem_cons_self x xs)
    have hcx : c ∉ xs := fun hm => h (List.mem_cons_of_mem x hm)
    simp [splitFirst, hxc, ih hcx]

lemma splitAll_ne_nil (c : Char) (l : List Char) : splitAll c l ≠ [] := by
  cases l with
  | nil => simp [splitAll]
  | cons x xs =>
    simp only [splitAll]
    cases h : splitAll c xs with
    | nil => simp
    | cons hd tl =>
      by_cases hx : x = c <;> simp [hx]

lemma splitAll_append (c : Char) (pre post : List Char) (h : c ∉ pre) :
    splitAll c (pre ++ c :: post) = pre :: splitAll c post := by
  induction pre with
  | nil =>
    simp only [List.nil_append, splitAll]
    cases hs : splitAll c post with
    | nil => exact absurd hs (splitAll_ne_nil c post)
    | cons hd tl => simp
  | cons x xs ih =>
    have hxc : ¬x = c := fun he => h (he ▸ List.mem_cons_self x xs)
    have hcx : c ∉ xs := fun hm => h (List.mem_cons_of_mem x hm)
    simp only [List.cons_append, splitAll]
    rw [List.append_eq, ih hcx]
    simp [hxc]

lemma mem_of_splitAll (c : Char) (l : List Char) (x : Char) (hx : x ∈ l) :
    x = c ∨ ∃ comp ∈ splitAll c l, x ∈ comp := by
  induction l with
  | nil => cases hx
  | cons y ys ih =>
    rcases List.mem_cons.mp hx with hxy | hmem
    · by_cases hyc : y = c
      · exact Or.inl (hxy.trans hyc)
      · refine Or.inr ?_
        subst hxy
        cases hs : splitAll c ys with
        | nil => exact absurd hs (splitAll_ne_nil c ys)
        | cons hd tl =>
          refine ⟨x :: hd, ?_, List.mem_cons_self x hd⟩
          simp [splitAll, hs, hyc]
    · rcases ih hmem with hc | ⟨comp, hcomp, hxin⟩
      · exact Or.inl hc
      · refine Or.inr ?_
        cases hs : splitAll c ys with
        | nil => exact absurd hs (splitAll_ne_nil c ys)
        | cons hd tl =>
          rw [hs] at hcomp
          by_cases hyc : y = c
          · exact ⟨comp, by simp [splitAll, hs, hyc, hcomp], hxin⟩
          · rcases List.mem_cons.mp hcomp with hch | hct
            · exact ⟨y :: comp, by simp [splitAll, hs, hyc, hch], List.mem_cons_of_mem y hxin⟩
            · exact ⟨comp, by simp [splitAll, hs, hyc, Or.inr hct], hxin⟩

lemma validPath_chars (l : List Char) (h : validPath l = true) (x : Char) (hx : x ∈ l) :
    x = '/' ∨ validCompChar x = true := by
  rcases mem_of_splitAll '/' l x hx with hc | ⟨comp, hcomp, hxin⟩
  · exact Or.inl hc
  · refine Or.inr ?_
    have hvc : validComponent comp = true := by
      have := List.all_eq_true.mp h comp hcomp
      exact this
    unfold validComponent at hvc
    cases hh : comp.head? with
    | none => simp [hh] at hvc
    | some ch =>
      cases hl : comp.getLast? with
      | none => simp [hh, hl] at hvc
      | some cl =>
        rw [hh, hl] at hvc
        simp only [Bool.and_eq_true] at hvc
        exact List.all_eq_true.mp hvc.2 x hxin

lemma validTag_chars (t : List Char) (h : validTag t = true) (x : Char) (hx : x ∈ t) :
    validTagChar x = true := by
  unfold validTag at h
  cases hh : t.head? with
  | none => simp [hh] at h
  | some ch =>
    rw [hh] at h
    simp only [Bool.and_eq_true] at h
    exact List.all_eq_true.mp h.1.2 x hx

lemma validPath_drop_library (rest : List Char)
    (h : validPath ("library/".data ++ rest) = true) : validPath rest = true := by
  have he : ("library/".data ++ rest) = "library".data ++ '/' :: rest := rfl
  rw [he] at h
  have hnm : '/' ∉ "library".data := by decide
  unfold validPath at h ⊢
  rw [splitAll_append '/' "library".data rest hnm] at h
  simp only [List.all_cons, Bool.and_eq_true] at h
  exact h.2

lemma parse_dhi_core (rest td : List Char) (tagOpt : Option (List Char))
    (hrest : validPath rest = true)
    (hAt : '@' ∉ rest ++ td)
    (hcolon : splitFirst ':' (rest ++ td) = (rest, tagOpt))
    (htagok : (match tagOpt with | none => true | some t => validTag t) = true) :
    parseRefChars ("dhi.io".data ++ '/' :: rest ++ td) =
      .ok { domain := "dhi.io", path := String.mk rest, tag := tagOpt.map String.mk,
            digest := none } := by
  have hcons : ("dhi.io".data ++ '/' :: rest ++ td) = 'd' :: 'h' :: 'i' :: '.' :: 'i' :: 'o' :: '/' :: (rest ++ td) := rfl
  have hnm : '/' ∉ "dhi.io".data := by decide
  have hs : splitFirst '/' ('d' :: 'h' :: 'i' :: '.' :: 'i' :: 'o' :: '/' :: (rest ++ td)) = ("dhi.io".data, some (rest ++ td)) :=
    splitFirst_append '/' "dhi.io".data (rest ++ td) hnm
  have hsdd : splitDockerDomain ('d' :: 'h' :: 'i' :: '.' :: 'i' :: 'o' :: '/' :: (rest ++ td)) = ("dhi.io".data, rest ++ td) := by
    simp +decide [splitDockerDomain, hs]
  have hhex : isHex64 ('d' :: 'h' :: 'i' :: '.' :: 'i' :: 'o' :: '/' :: (rest ++ td)) = false := by
    have h1 : isHexChar 'h' = false := by decide
    have h0 : isHexChar 'd' = true := by decide
    simp [isHex64, List.all_cons, h0, h1]
  have hat : splitFirst '@' (rest ++ td) = (rest ++ td, none) := splitFirst_not_mem '@' (rest ++ td) hAt
  have hdom : String.mk "dhi.io".data = "dhi.io" := rfl
  have hdomv : validDomainB "dhi.io".data = true := by decide
  rw [hcons]
  unfold parseRefChars
  simp only [hhex, Bool.false_eq_true, if_false, hsdd, hat, hcolon, htagok, hdom, hdomv, hrest,
    Bool.true_and, Bool.and_true, if_true]
  cases tagOpt with
  | none => simp
  | some t =>
    have hv : validTag t = true := htagok
    simp [hv]

lemma mapToDHI_eligible (r : Reference) (hwf : r.wf = true) (hc : CanMapToDHI r = true) :
    ∃ rest : List Char, r.path.data = "library/".data ++ rest ∧
      MapToDHI r = .ok { domain := "dhi.io", path := String.mk rest, tag := r.tag, digest := none } := by
  have hc' := hc
  unfold CanMapToDHI at hc'
  simp only [Bool.and_eq_true, beq_iff_eq] at hc'
  obtain ⟨hdom, hpre⟩ := hc'
  obtain ⟨rest, hrest⟩ := (List.isPrefixOf_iff_prefix).mp hpre
  refine ⟨rest, hrest.symm, ?_⟩
  -- well-formedness facts
  unfold Reference.wf at hwf
  simp only [Bool.and_eq_true] at hwf
  have hvpath : validPath r.path.data = true := hwf.1.1.2
  have hvrest : validPath rest = true := by
    apply validPath_drop_library
    rw [hrest]
    exact hvpath
  have hAtRest : '@' ∉ rest := fun hm => by
    rcases validPath_chars rest hvrest '@' hm with h | h
    · exact absurd h (by decide)
    · exact absurd h (by decide)
  have hColonRest : ':' ∉ rest := fun hm => by
    rcases validPath_chars rest hvrest ':' hm with h | h
    · exact absurd h (by decide)
    · exact absurd h (by decide)
  -- the tag bytes appended to the rewritten reference string
  have hmap : MapToDHI r = parseRefChars ("dhi.io".data ++ '/' :: rest ++
      (match r.tag with | some t => ':' :: t.data | none => [])) := by
    unfold MapToDHI
    rw [hc]
    have htrim : trimPre "library/".data r.path.data = rest := by
      unfold trimPre
      rw [hpre, if_pos rfl, ← hrest]
      exact List.drop_left "library/".data rest
    simp only [Bool.not_true, Bool.false_eq_true, if_false, htrim]
    rfl
  rw [hmap]
  cases htg : r.tag with
  | none =>
    have := parse_dhi_core rest [] none hvrest
      (by simp [hAtRest]) (by simpa using splitFirst_not_mem ':' rest hColonRest) rfl
    simpa using this
  | some t =>
    have hvt : validTag t.data = true := by
      have := hwf.1.2
      rw [htg] at this
      exact this
    have hAtT : '@' ∉ ':' :: t.data := by
      intro hm
      rcases List.mem_cons.mp hm with h | h
      · exact absurd h (by decide)
      · exact absurd (validTag_chars t.data hvt '@' h) (by decide)
    have hAt : '@' ∉ rest ++ ':' :: t.data := by
      intro hm
      rcases List.mem_append.mp hm with h | h
      · exact hAtRest h
      · exact hAtT h
    have hcolon : splitFirst ':' (rest ++ ':' :: t.data) = (rest, some t.data) :=
      splitFirst_append ':' rest t.data hColonRest
    have := parse_dhi_core rest (':' :: t.data) (some t.data) hvrest hAt hcolon hvt
    rw [this]
    simp

theorem claim7_counterexample :
    parseNormalizedNamed "docker.io/library/foo/bar" =
      .ok { domain := "docker.io", path := "library/foo/bar", tag := none, digest := none } ∧
    MapToDHI { domain := "docker.io", path := "library/foo/bar", tag := none, digest := none } =
      .ok { domain := "dhi.io", path := "foo/bar", tag := none, digest := none } ∧
    MapToDHI { domain := "docker.io", path := "library/foo/bar", tag := none, digest := none } ≠
      .error errNotEligible := by
  refine ⟨by decide, by decide, by decide⟩

theorem claim7_amended (r : Reference) (hwf : r.wf = true) :
    (MapToDHI r = .error errNotEligible ↔
      ¬(r.domain = "docker.io" ∧ "library/".data.isPrefixOf r.path.data = true)) ∧
    (∀ rest : List Char, r.domain = "docker.io" → r.path.data = "library/".data ++ rest →
      MapToDHI r = .ok { domain := "dhi.io", path := String.mk rest, tag := r.tag, digest := none }) := by
  have hcan : CanMapToDHI r = true ↔
      (r.domain = "docker.io" ∧ "library/".data.isPrefixOf r.path.data = true) := by
    unfold CanMapToDHI
    simp [Bool.and_eq_true, beq_iff_eq]
  constructor
  · constructor
    · intro herr hel
      obtain ⟨rest, _, hok⟩ := mapToDHI_eligible r hwf (hcan.mpr hel)
      rw [hok] at herr
      exact absurd herr (by simp)
    · intro hnel
      have hcf : CanMapToDHI r = false := by
        cases hcb : CanMapToDHI r with
        | false => rfl
        | true => exact absurd (hcan.mp hcb) hnel
      unfold MapToDHI
      rw [hcf]
      rfl
  · intro rest hdom hpath
    have hc : CanMapToDHI r = true := by
      apply hcan.mpr
      refine ⟨hdom, ?_⟩
      rw [hpath]
      exact List.isPrefixOf_iff_prefix.mpr ⟨rest, rfl⟩
    obtain ⟨rest', hpath', hok⟩ := mapToDHI_eligible r hwf hc
    have : rest' = rest := by
      apply List.append_cancel_left
      rw [← hpath', ← hpath]
    rw [hok, this]

theorem claim7_witness :
    (({ domain := "ghcr.io", path := "actions/runner", tag := some "latest", digest := none } : Reference).wf
      = true) ∧
    MapToDHI { domain := "ghcr.io", path := "actions/runner", tag := some "latest", digest := none } =
      .error errNotEligible ∧
    MapToDHI { domain := "docker.io", path := "library/alpine", tag := some "3.18", digest := none } =
      .ok { domain := "dhi.io", path := "alpine", tag := some "3.18", digest := none } := by
  refine ⟨by decide, ?_, ?_⟩
  · exact (claim7_amended
      { domain := "ghcr.io", path := "actions/runner", tag := some "latest", digest := none }
      (by decide)).1.mpr (by decide)
  · exact (claim7_amended
      { domain := "docker.io", path := "library/alpine", tag := some "3.18", digest := none }
      (by decide)).2 "alpine".data rfl (by decide)

theorem claim10_no_double_map (r : Reference) (hwf : r.wf = true) (hc : CanMapToDHI r = true) :
    ∃ r', MapToDHI r = .ok r' ∧ r'.domain = "dhi.io" ∧ CanMapToDHI r' = false ∧
      MapToDHI r' = .error errNotEligible := by
  obtain ⟨rest, _, hok⟩ := mapToDHI_eligible r hwf hc
  refine ⟨_, hok, rfl, ?_, ?_⟩
  · unfold CanMapToDHI
    simp
  · unfold MapToDHI CanMapToDHI
    simp

theorem claim10_witness :
    ∃ r', MapToDHI { domain := "docker.io", path := "library/golang", tag := some "1.23", digest := none } =
        .ok r' ∧ r'.domain = "dhi.io" ∧ CanMapToDHI r' = false ∧
      MapToDHI r' = .error errNotEligible :=
  claim10_no_double_map
    { domain := "docker.io", path := "library/golang", tag := some "1.23", digest := none }
    (by decide) (by decide)

/-! ### Structure of a successful `GeneratePolicy` run -/

lemma processRefs_rules (gd : Reference → Except String String) :
    ∀ (refs : List ImageRef) (seen : List String) (pol : Policy) (out : List String × Policy),
      processRefs gd refs seen pol = .ok out →
      out.2.rules.map PolicyRule.selectorIdentifier =
        pol.rules.map PolicyRule.selectorIdentifier ++
          (pinTargets refs seen).map (fun r => "docker-image://" ++ r.original) := by
  intro refs
  induction refs with
  | nil =>
    intro seen pol out h
    simp only [processRefs] at h
    cases h
    simp [pinTargets]
  | cons r rest ih =>
    intro seen pol out h
    by_cases hmem : r.original ∈ seen
    · simp only [processRefs, if_pos hmem] at h
      simpa [pinTargets, hmem] using ih seen pol out h
    · simp only [processRefs, if_neg hmem] at h
      cases hd : r.ref.digest.isSome with
      | true =>
        rw [if_pos hd] at h
        simpa [pinTargets, hmem, hd] using ih (seen ++ [r.original]) pol out h
      | false =>
        rw [if_neg (by simp [hd])] at h
        cases hgd : gd r.ref with
        | error e => rw [hgd] at h; cases h
        | ok dstr =>
          rw [hgd] at h
          dsimp only at h
          cases hpd : parseDigest dstr with
          | error e => rw [hpd] at h; cases h
          | ok d =>
            rw [hpd] at h
            dsimp only at h
            cases hwd : withDigest r.ref d with
            | error e => rw [hwd] at h; cases h
            | ok pinned =>
              rw [hwd] at h
              dsimp only at h
              have := ih (seen ++ [r.original]) (addPinRule pol r.original (refString pinned)) out h
              simp only [addPinRule, List.map_append] at this
              simp [pinTargets, hmem, hd, this]

lemma processRefs_error_of_target (gd : Reference → Except String String) :
    ∀ (refs : List ImageRef) (seen : List String) (pol : Policy) (r : ImageRef),
      r ∈ pinTargets refs seen → (∃ e, gd r.ref = .error e) →
      ∃ e', processRefs gd refs seen pol = .error e' := by
  intro refs
  induction refs with
  | nil => intro seen pol r hr _; simp [pinTargets] at hr
  | cons x rest ih =>
    intro seen pol r hr hgd
    by_cases hmem : x.original ∈ seen
    · rw [pinTargets, if_pos hmem] at hr
      obtain ⟨e', he'⟩ := ih seen pol r hr hgd
      exact ⟨e', by rw [processRefs, if_pos hmem]; exact he'⟩
    · cases hd : x.ref.digest.isSome with
      | true =>
        rw [pinTargets, if_neg hmem, if_pos hd] at hr
        obtain ⟨e', he'⟩ := ih (seen ++ [x.original]) pol r hr hgd
        exact ⟨e', by rw [processRefs, if_neg hmem, if_pos hd]; exact he'⟩
      | false =>
        rw [pinTargets, if_neg hmem, if_neg (by simp [hd])] at hr
        rcases List.mem_cons.mp hr with hrx | hrt
        · subst hrx
          obtain ⟨e, he⟩ := hgd
          refine ⟨"failed to get digest for " ++ r.original ++ ": " ++ e, ?_⟩
          rw [processRefs, if_neg hmem, if_neg (by simp [hd]), he]
        · cases hx : gd x.ref with
          | error e =>
            refine ⟨"failed to get digest for " ++ x.original ++ ": " ++ e, ?_⟩
            rw [processRefs, if_neg hmem, if_neg (by simp [hd]), hx]
          | ok dstr =>
            cases hpd : parseDigest dstr with
            | error e =>
              refine ⟨"failed to parse digest " ++ dstr ++ ": " ++ e, ?_⟩
              rw [processRefs, if_neg hmem, if_neg (by simp [hd]), hx]
              dsimp only
              rw [hpd]
            | ok d =>
              cases hwd : withDigest x.ref d with
              | error e =>
                refine ⟨"failed to create pinned reference for " ++ x.original ++ ": " ++ e, ?_⟩
                rw [processRefs, if_neg hmem, if_neg (by simp [hd]), hx]
                dsimp only
                rw [hpd]
                dsimp only
                rw [hwd]
              | ok pinned =>
                obtain ⟨e', he'⟩ := ih (seen ++ [x.original])
                  (addPinRule pol x.original (refString pinned)) r hrt hgd
                refine ⟨e', ?_⟩
                rw [processRefs, if_neg hmem, if_neg (by simp [hd]), hx]
                dsimp only
                rw [hpd]
                dsimp only
                rw [hwd]
                dsimp only
                exact he'

lemma genGo_error_of_parse_error (parse : String → Except String (List ImageRef))
    (gd : Reference → Except String String) :
    ∀ (paths : List String) (seen : List String) (pol : Policy) (p : String),
      p ∈ paths → (∃ e, parse p = .error e) →
      ∃ e', generatePolicyGo parse gd paths seen pol = .error e' := by
  intro paths
  induction paths with
  | nil => intro seen pol p hp _; cases hp
  | cons q rest ih =>
    intro seen pol p hp hpe
    cases hq : parse q with
    | error e =>
      exact ⟨"failed to parse " ++ q ++ ": " ++ e, by rw [generatePolicyGo, hq]⟩
    | ok refs =>
      rcases List.mem_cons.mp hp with hpq | hpt
      · obtain ⟨e, he⟩ := hpe
        rw [hpq, hq] at he
        cases he
      · cases hpr : processRefs gd refs seen pol with
        | error e =>
          refine ⟨e, ?_⟩
          rw [generatePolicyGo, hq]
          dsimp only
          rw [hpr]
        | ok sp =>
          obtain ⟨e', he'⟩ := ih sp.1 sp.2 p hpt hpe
          refine ⟨e', ?_⟩
          rw [generatePolicyGo, hq]
          dsimp only
          rw [hpr]
          exact he'

lemma processRefs_append (gd : Reference → Except String String) (xs ys : List ImageRef) :
    ∀ (seen : List String) (pol : Policy),
      processRefs gd (xs ++ ys) seen pol =
        match processRefs gd xs seen pol with
        | .error e => .error e
        | .ok sp => processRefs gd ys sp.1 sp.2 := by
  induction xs with
  | nil => intro seen pol; rfl
  | cons x rest ih =>
    intro seen pol
    by_cases hmem : x.original ∈ seen
    · rw [List.cons_append, processRefs, if_pos hmem, ih, processRefs, if_pos hmem]
    · cases hd : x.ref.digest.isSome with
      | true =>
        rw [List.cons_append, processRefs, if_neg hmem, if_pos hd, ih,
          processRefs, if_neg hmem, if_pos hd]
      | false =>
        rw [List.cons_append, processRefs, if_neg hmem, if_neg (by simp [hd]),
          processRefs, if_neg hmem, if_neg (by simp [hd])]
        cases hx : gd x.ref with
        | error e => rfl
        | ok dstr =>
          dsimp only
          cases hpd : parseDigest dstr with
          | error e => rfl
          | ok d =>
            dsimp only
            cases hwd : withDigest x.ref d with
            | error e => rfl
            | ok pinned => exact ih (seen ++ [x.original]) (addPinRule pol x.original (refString pinned))

lemma genGo_flatten (parse : String → Except String (List ImageRef))
    (gd : Reference → Except String String) :
    ∀ (paths : List String) (seen : List String) (pol : Policy),
      (∀ p ∈ paths, ∃ rs, parse p = .ok rs) →
      generatePolicyGo parse gd paths seen pol =
        processRefs gd (allRefs parse paths) seen pol := by
  intro paths
  induction paths with
  | nil => intro seen pol _; rfl
  | cons q rest ih =>
    intro seen pol hok
    obtain ⟨rs, hq⟩ := hok q (List.mem_cons_self q rest)
    have hall : allRefs parse (q :: rest) = rs ++ allRefs parse rest := by
      unfold allRefs refsOf
      rw [List.map_cons, List.flatten_cons, hq]
    rw [hall, processRefs_append, generatePolicyGo, hq]
    dsimp only
    cases hpr : processRefs gd rs seen pol with
    | error e => rfl
    | ok sp => exact ih sp.1 sp.2 (fun p hp => hok p (List.mem_cons_of_mem q hp))

lemma generatePolicy_ok_parses (parse : String → Except String (List ImageRef))
    (gd : Reference → Except String String) (paths : List String) (pol : Policy)
    (h : generatePolicy parse gd paths = .ok pol) :
    ∀ p ∈ paths, ∃ rs, parse p = .ok rs := by
  intro p hp
  cases hq : parse p with
  | ok rs => exact ⟨rs, rfl⟩
  | error e =>
    obtain ⟨e', he'⟩ := genGo_error_of_parse_error parse gd paths [] { rules := [] } p hp ⟨e, hq⟩
    unfold generatePolicy at h
    rw [he'] at h
    cases h

lemma generatePolicy_ok_processRefs (parse : String → Except String (List ImageRef))
    (gd : Reference → Except String String) (paths : List String) (pol : Policy)
    (h : generatePolicy parse gd paths = .ok pol) :
    ∃ seen, processRefs gd (allRefs parse paths) [] { rules := [] } = .ok (seen, pol) := by
  have hflat := genGo_flatten parse gd paths [] { rules := [] }
    (generatePolicy_ok_parses parse gd paths pol h)
  unfold generatePolicy at h
  rw [hflat] at h
  cases hpr : processRefs gd (allRefs parse paths) [] { rules := [] } with
  | error e => rw [hpr] at h; cases h
  | ok sp =>
    rw [hpr] at h
    cases h
    exact ⟨sp.1, rfl⟩

lemma generatePolicy_rules (parse : String → Except String (List ImageRef))
    (gd : Reference → Except String String) (paths : List String) (pol : Policy)
    (h : generatePolicy parse gd paths = .ok pol) :
    pol.rules.map PolicyRule.selectorIdentifier =
      (pinTargets (allRefs parse paths) []).map (fun r => "docker-image://" ++ r.original) := by
  obtain ⟨seen, hpr⟩ := generatePolicy_ok_processRefs parse gd paths pol h
  have := processRefs_rules gd (allRefs parse paths) [] { rules := [] } (seen, pol) hpr
  simpa using this

/-! ### Dedup bookkeeping of `pinTargets` -/

lemma pinTargets_not_seen :
    ∀ (refs : List ImageRef) (seen : List String) (o : String),
      o ∈ (pinTargets refs seen).map ImageRef.original → o ∉ seen := by
  intro refs
  induction refs with
  | nil => intro seen o ho; simp [pinTargets] at ho
  | cons x rest ih =>
    intro seen o ho
    by_cases hmem : x.original ∈ seen
    · rw [pinTargets, if_pos hmem] at ho
      exact ih seen o ho
    · cases hd : x.ref.digest.isSome with
      | true =>
        rw [pinTargets, if_neg hmem, if_pos hd] at ho
        have := ih (seen ++ [x.original]) o ho
        exact fun hs => this (List.mem_append_left _ hs)
      | false =>
        rw [pinTargets, if_neg hmem, if_neg (by simp [hd])] at ho
        rcases List.mem_cons.mp ho with hox | hot
        · exact hox ▸ hmem
        · have := ih (seen ++ [x.original]) o hot
          exact fun hs => this (List.mem_append_left _ hs)

lemma pinTargets_nodup :
    ∀ (refs : List ImageRef) (seen : List String),
      ((pinTargets refs seen).map ImageRef.original).Nodup := by
  intro refs
  induction refs with
  | nil => intro seen; simp [pinTargets]
  | cons x rest ih =>
    intro seen
    by_cases hmem : x.original ∈ seen
    · rw [pinTargets, if_pos hmem]; exact ih seen
    · cases hd : x.ref.digest.isSome with
      | true => rw [pinTargets, if_neg hmem, if_pos hd]; exact ih (seen ++ [x.original])
      | false =>
        rw [pinTargets, if_neg hmem, if_neg (by simp [hd]), List.map_cons, List.nodup_cons]
        refine ⟨fun hin => ?_, ih (seen ++ [x.original])⟩
        have := pinTargets_not_seen rest (seen ++ [x.original]) x.original hin
        exact this (List.mem_append_right _ (List.mem_singleton.mpr rfl))

lemma pinTargets_mem_of_first :
    ∀ (refs : List ImageRef) (seen : List String) (o : String) (r : ImageRef),
      List.find? (fun x => x.original == o) refs = some r → r.ref.digest = none →
      o ∉ seen → o ∈ (pinTargets refs seen).map ImageRef.original := by
  intro refs
  induction refs with
  | nil => intro seen o r hf; cases hf
  | cons x rest ih =>
    intro seen o r hf hd hns
    rw [List.find?_cons] at hf
    cases hx : (x.original == o) with
    | true =>
      rw [hx] at hf
      have hxr : x = r := by injection hf
      subst hxr
      have hxo : x.original = o := eq_of_beq hx
      rw [pinTargets, if_neg (by rw [hxo]; exact hns), if_neg (by simp [hd]), List.map_cons]
      exact List.mem_cons.mpr (Or.inl hxo.symm)
    | false =>
      rw [hx] at hf
      have hxo : x.original ≠ o := fun he => by simp [he] at hx
      by_cases hmem : x.original ∈ seen
      · rw [pinTargets, if_pos hmem]
        exact ih seen o r hf hd hns
      · have hns' : o ∉ seen ++ [x.original] := by
          intro hin
          rcases List.mem_append.mp hin with hin | hin
          · exact hns hin
          · exact hxo (List.mem_singleton.mp hin).symm
        cases hdx : x.ref.digest.isSome with
        | true =>
          rw [pinTargets, if_neg hmem, if_pos hdx]
          exact ih (seen ++ [x.original]) o r hf hd hns'
        | false =>
          rw [pinTargets, if_neg hmem, if_neg (by simp [hdx]), List.map_cons]
          exact List.mem_cons_of_mem _ (ih (seen ++ [x.original]) o r hf hd hns')

lemma pinTargets_not_mem_of_first_digested :
    ∀ (refs : List ImageRef) (seen : List String) (o : String) (r : ImageRef),
      List.find? (fun x => x.original == o) refs = some r → r.ref.digest.isSome = true →
      o ∉ (pinTargets refs seen).map ImageRef.original := by
  intro refs
  induction refs with
  | nil => intro seen o r hf; cases hf
  | cons x rest ih =>
    intro seen o r hf hd hin
    rw [List.find?_cons] at hf
    cases hx : (x.original == o) with
    | true =>
      rw [hx] at hf
      have hxr : x = r := by injection hf
      subst hxr
      have hxo : x.original = o := eq_of_beq hx
      by_cases hmem : x.original ∈ seen
      · rw [pinTargets, if_pos hmem] at hin
        exact (pinTargets_not_seen rest seen o hin) (hxo ▸ hmem)
      · rw [pinTargets, if_neg hmem, if_pos hd] at hin
        exact (pinTargets_not_seen rest (seen ++ [x.original]) o hin)
          (List.mem_append_right _ (List.mem_singleton.mpr hxo.symm))
    | false =>
      rw [hx] at hf
      have hxo : x.original ≠ o := fun he => by simp [he] at hx
      by_cases hmem : x.original ∈ seen
      · rw [pinTargets, if_pos hmem] at hin
        exact ih seen o r hf hd hin
      · cases hdx : x.ref.digest.isSome with
        | true =>
          rw [pinTargets, if_neg hmem, if_pos hdx] at hin
          exact ih (seen ++ [x.original]) o r hf hd hin
        | false =>
          rw [pinTargets, if_neg hmem, if_neg (by simp [hdx]), List.map_cons] at hin
          rcases List.mem_cons.mp hin with hox | hot
          · exact hxo hox.symm
          · exact ih (seen ++ [x.original]) o r hf hd hot

lemma pinTargets_sublist_firstSeen :
    ∀ (refs : List ImageRef) (seen : List String),
      List.Sublist ((pinTargets refs seen).map ImageRef.original) (firstSeen refs seen) := by
  intro refs
  induction refs with
  | nil => intro seen; simp [pinTargets, firstSeen]
  | cons x rest ih =>
    intro seen
    by_cases hmem : x.original ∈ seen
    · rw [pinTargets, if_pos hmem, firstSeen, if_pos hmem]
      exact ih seen
    · cases hd : x.ref.digest.isSome with
      | true =>
        rw [pinTargets, if_neg hmem, if_pos hd, firstSeen, if_neg hmem]
        exact List.Sublist.cons x.original (ih (seen ++ [x.original]))
      | false =>
        rw [pinTargets, if_neg hmem, if_neg (by simp [hd]), firstSeen, if_neg hmem, List.map_cons]
        exact List.Sublist.cons₂ x.original (ih (seen ++ [x.original]))

/-! ### Counting rules per Original -/

lemma strDataAppend (a b : String) : (a ++ b).data = a.data ++ b.data := by
  cases a; cases b; rfl

lemma strAppendCancel (p a b : String) (h : p ++ a = p ++ b) : a = b := by
  have hd := congrArg String.data h
  rw [strDataAppend, strDataAppend] at hd
  have hc := List.append_cancel_left hd
  cases a
  cases b
  exact congrArg String.mk hc

lemma beqAppendCancel (pre a b : String) : ((pre ++ a) == (pre ++ b)) = (a == b) := by
  by_cases h : a = b
  · subst h; simp
  · have h1 : ((pre ++ a) == (pre ++ b)) = false :=
      beq_eq_false_iff_ne.mpr (fun hh => h (strAppendCancel pre a b hh))
    have h2 : (a == b) = false := beq_eq_false_iff_ne.mpr h
    rw [h1, h2]

lemma filterMapLen {α β : Type} (f : α → β) (p : β → Bool) (l : List α) :
    ((l.map f).filter p).length = (l.filter (fun a => p (f a))).length := by
  induction l with
  | nil => rfl
  | cons a as ih =>
    rw [List.map_cons, List.filter_cons, List.filter_cons]
    cases h : p (f a) with
    | true => simp [ih]
    | false => simp [ih]

lemma filterBeqLenZero (l : List String) (x : String) (h : x ∉ l) :
    (l.filter (fun s => s == x)).length = 0 := by
  induction l with
  | nil => rfl
  | cons a as ih =>
    rw [List.filter_cons]
    have hax : (a == x) = false :=
      beq_eq_false_iff_ne.mpr (fun he => h (he ▸ List.mem_cons_self a as))
    rw [hax]
    exact ih (fun hm => h (List.mem_cons_of_mem a hm))

lemma filterBeqLenLeOne (l : List String) (h : l.Nodup) (x : String) :
    (l.filter (fun s => s == x)).length ≤ 1 := by
  induction l with
  | nil => simp
  | cons a as ih =>
    rw [List.nodup_cons] at h
    rw [List.filter_cons]
    cases hax : (a == x) with
    | false =>
      simp only [Bool.false_eq_true, if_false]
      exact ih h.2
    | true =>
      have hxas : x ∉ as := (eq_of_beq hax) ▸ h.1
      simp only [if_true]
      rw [List.length_cons, filterBeqLenZero as x hxas]

lemma filterBeqLenOne (l : List String) (h : l.Nodup) (x : String) (hm : x ∈ l) :
    (l.filter (fun s => s == x)).length = 1 := by
  induction l with
  | nil => cases hm
  | cons a as ih =>
    rw [List.nodup_cons] at h
    rw [List.filter_cons]
    by_cases hax : a = x
    · subst hax
      rw [beq_self_eq_true]
      simp only [if_true]
      rw [List.length_cons, filterBeqLenZero as a h.1]
    · have hb : (a == x) = false := beq_eq_false_iff_ne.mpr hax
      rw [hb]
      simp only [Bool.false_eq_true, if_false]
      refine ih h.2 ?_
      rcases List.mem_cons.mp hm with he | hmm
      · exact absurd he.symm hax
      · exact hmm

lemma countRulesFor_pinTargets (parse : String → Except String (List ImageRef))
    (gd : Reference → Except String String) (paths : List String) (pol : Policy) (o : String)
    (h : generatePolicy parse gd paths = .ok pol) :
    countRulesFor pol o =
      (((pinTargets (allRefs parse paths) []).map ImageRef.original).filter
        (fun s => s == o)).length := by
  unfold countRulesFor rulesFor
  rw [← filterMapLen PolicyRule.selectorIdentifier
    (fun s => s == "docker-image://" ++ o) pol.rules]
  rw [generatePolicy_rules parse gd paths pol h]
  rw [filterMapLen]
  have h2 : ∀ r ∈ pinTargets (allRefs parse paths) [],
      (("docker-image://" ++ r.original) == ("docker-image://" ++ o)) = (r.original == o) :=
    fun r _ => beqAppendCancel _ _ _
  rw [List.filter_congr h2]
  rw [← filterMapLen ImageRef.original (fun s => s == o)]

lemma processRefs_congr (gd gd' : Reference → Except String String)
    (hagree : ∀ ref : Reference, ref.digest = none → gd ref = gd' ref) :
    ∀ (refs : List ImageRef) (seen : List String) (pol : Policy),
      processRefs gd refs seen pol = processRefs gd' refs seen pol := by
  intro refs
  induction refs with
  | nil => intro seen pol; rfl
  | cons x rest ih =>
    intro seen pol
    by_cases hmem : x.original ∈ seen
    · rw [processRefs, if_pos hmem, processRefs, if_pos hmem, ih]
    · cases hd : x.ref.digest.isSome with
      | true =>
        rw [processRefs, if_neg hmem, if_pos hd, processRefs, if_neg hmem, if_pos hd, ih]
      | false =>
        have hnone : x.ref.digest = none := by
          cases hx : x.ref.digest with
          | none => rfl
          | some d => rw [hx] at hd; cases hd
        rw [processRefs, if_neg hmem, if_neg (by simp [hd]), processRefs, if_neg hmem,
          if_neg (by simp [hd]), hagree x.ref hnone]
        cases gd' x.ref with
        | error e => rfl
        | ok dstr =>
          dsimp only
          cases parseDigest dstr with
          | error e => rfl
          | ok d =>
            dsimp only
            cases withDigest x.ref d with
            | error e => rfl
            | ok pinned => exact ih _ _

lemma genGo_congr (parse : String → Except String (List ImageRef))
    (gd gd' : Reference → Except String String)
    (hagree : ∀ ref : Reference, ref.digest = none → gd ref = gd' ref) :
    ∀ (paths : List String) (seen : List String) (pol : Policy),
      generatePolicyGo parse gd paths seen pol = generatePolicyGo parse gd' paths seen pol := by
  intro paths
  induction paths with
  | nil => intro seen pol; rfl
  | cons q rest ih =>
    intro seen pol
    rw [generatePolicyGo, generatePolicyGo]
    cases parse q with
    | error e => rfl
    | ok refs =>
      dsimp only
      rw [processRefs_congr gd gd' hagree refs seen pol]
      cases processRefs gd' refs seen pol with
      | error e => rfl
      | ok sp => exact ih sp.1 sp.2

/-! ### Witness fixtures: a concrete extraction and registry -/

/-- Witness fixture: a pinnable alpine reference as extracted from a
Dockerfile. -/
def wRef : ImageRef :=
  { original := "alpine:3.18",
    ref := { domain := "docker.io", path := "library/alpine", tag := some "3.18", digest := none } }

/-- Witness fixture: every input file extracts to the single alpine
reference. -/
def wParse : String → Except String (List ImageRef) := fun _ => .ok [wRef]

/-- Witness fixture: a registry resolving every reference to a fixed
digest. -/
def wGd : Reference → Except String String :=
  fun _ => .ok "sha256:aaaaaaaaaaaaaaaaaaaaaaaaaaaaaaaaaaaaaaaaaaaaaaaaaaaaaaaaaaaaaaaa"

/-- Witness fixture: the policy document the run over `wParse`/`wGd`
produces. -/
def wPol : Policy :=
  { rules := [{ selectorIdentifier := "docker-image://alpine:3.18",
                updatesIdentifier :=
                  "docker-image://docker.io/library/alpine:3.18@sha256:aaaaaaaaaaaaaaaaaaaaaaaaaaaaaaaaaaaaaaaaaaaaaaaaaaaaaaaaaaaaaaaa" }] }

/-- Counterexample fixture: the Original text of an already
digest-qualified reference. -/
def dOrig : String :=
  "alpine@sha256:aaaaaaaaaaaaaaaaaaaaaaaaaaaaaaaaaaaaaaaaaaaaaaaaaaaaaaaaaaaaaaaa"

/-- Counterexample fixture: the digest-qualified reference itself. -/
def dRef : ImageRef :=
  { original := dOrig,
    ref := { domain := "docker.io", path := "library/alpine", tag := none,
             digest := some "sha256:aaaaaaaaaaaaaaaaaaaaaaaaaaaaaaaaaaaaaaaaaaaaaaaaaaaaaaaaaaaaaaaa" } }

/-- Counterexample fixture: a Dockerfile whose extraction yields the same
digest-qualified Original twice. -/
def dParse : String → Except String (List ImageRef) := fun _ => .ok [dRef, dRef]

/-! ### Claims about `GeneratePolicy` (C1, C2, C3, C4) and `WritePolicy` (C9) -/

/-- C1 counterexample: an Original that appears twice across the inputs
but is digest-qualified yields zero rules, not exactly one: `GeneratePolicy`
succeeds with an empty document. -/
theorem claim1_counterexample :
    (allRefs dParse ["Dockerfile"]).map ImageRef.original = [dOrig, dOrig] ∧
      generatePolicy dParse wGd ["Dockerfile"] = .ok { rules := [] } ∧
      countRulesFor { rules := [] } dOrig = 0 := by
  refine ⟨by decide, by decide, by decide⟩

/-- C1 amended: in any successful run, at most one rule is emitted per
Original (the first occurrence wins and every later duplicate is a no-op),
and exactly one rule is emitted when the first occurrence of that Original
is not digest-qualified. -/
theorem claim1_amended (parse : String → Except String (List ImageRef))
    (gd : Reference → Except String String) (paths : List String) (pol : Policy) (o : String)
    (h : generatePolicy parse gd paths = .ok pol) :
    countRulesFor pol o ≤ 1 ∧
      (∀ r, firstRefFor o (allRefs parse paths) = some r → r.ref.digest = none →
        countRulesFor pol o = 1) := by
  have hb := countRulesFor_pinTargets parse gd paths pol o h
  constructor
  · rw [hb]
    exact filterBeqLenLeOne _ (pinTargets_nodup _ _) o
  · intro r hf hd
    rw [hb]
    exact filterBeqLenOne _ (pinTargets_nodup _ _) o
      (pinTargets_mem_of_first _ [] o r hf hd (by simp))

theorem claim1_witness :
    countRulesFor wPol "alpine:3.18" ≤ 1 ∧
      (∀ r, firstRefFor "alpine:3.18" (allRefs wParse ["Dockerfile"]) = some r →
        r.ref.digest = none → countRulesFor wPol "alpine:3.18" = 1) :=
  claim1_amended wParse wGd ["Dockerfile"] wPol "alpine:3.18" (by decide)

/-- C2: in any successful run, the sequence of rules (read through their
selectors) is a sublist of the first-seen order of Originals across all
inputs, files in supplied order and references in extraction order — i.e.
rules appear ordered by the first occurrence of their Original. -/
theorem claim2_rule_order (parse : String → Except String (List ImageRef))
    (gd : Reference → Except String String) (paths : List String) (pol : Policy)
    (h : generatePolicy parse gd paths = .ok pol) :
    List.Sublist (pol.rules.map PolicyRule.selectorIdentifier)
      ((firstSeen (allRefs parse paths) []).map (fun o => "docker-image://" ++ o)) := by
  rw [generatePolicy_rules parse gd paths pol h]
  have hs := List.Sublist.map (fun o => "docker-image://" ++ o)
    (pinTargets_sublist_firstSeen (allRefs parse paths) [])
  simpa [List.map_map, Function.comp] using hs

theorem claim2_witness :
    List.Sublist (wPol.rules.map PolicyRule.selectorIdentifier)
      ((firstSeen (allRefs wParse ["Dockerfile"]) []).map (fun o => "docker-image://" ++ o)) :=
  claim2_rule_order wParse wGd ["Dockerfile"] wPol (by decide)

/-- C3: whenever some input Dockerfile fails to parse, or the digest
resolution of some pinned target (a non-skipped reference) fails,
`GeneratePolicy` returns an error — by the return type `Except`, the error
carries no policy document at all, so no partial document is ever
produced.  The error texts are built in `processRefs`/`generatePolicyGo`
from the offending reference or file. -/
lemma processRefs_ok_seen (gd : Reference → Except String String) :
    ∀ (refs : List ImageRef) (seen : List String) (pol : Policy) (out : List String × Policy),
      processRefs gd refs seen pol = .ok out → out.1 = seenAfter refs seen := by
  intro refs
  induction refs with
  | nil =>
    intro seen pol out h
    cases h
    rfl
  | cons x rest ih =>
    intro seen pol out h
    by_cases hmem : x.original ∈ seen
    · rw [processRefs, if_pos hmem] at h
      rw [seenAfter, if_pos hmem]
      exact ih seen pol out h
    · cases hd : x.ref.digest.isSome with
      | true =>
        rw [processRefs, if_neg hmem, if_pos hd] at h
        rw [seenAfter, if_neg hmem]
        exact ih (seen ++ [x.original]) pol out h
      | false =>
        rw [processRefs, if_neg hmem, if_neg (by simp [hd])] at h
        rw [seenAfter, if_neg hmem]
        cases hgd : gd x.ref with
        | error e => rw [hgd] at h; cases h
        | ok dstr =>
          rw [hgd] at h
          dsimp only at h
          cases hpd : parseDigest dstr with
          | error e => rw [hpd] at h; cases h
          | ok d =>
            rw [hpd] at h
            dsimp only at h
            cases hwd : withDigest x.ref d with
            | error e => rw [hwd] at h; cases h
            | ok pinned =>
              rw [hwd] at h
              dsimp only at h
              exact ih (seen ++ [x.original]) (addPinRule pol x.original (refString pinned)) out h

lemma pinTargets_append :
    ∀ (xs ys : List ImageRef) (seen : List String),
      pinTargets (xs ++ ys) seen = pinTargets xs seen ++ pinTargets ys (seenAfter xs seen) := by
  intro xs
  induction xs with
  | nil => intro ys seen; rfl
  | cons x rest ih =>
    intro ys seen
    by_cases hmem : x.original ∈ seen
    · simp only [List.cons_append, pinTargets, seenAfter, if_pos hmem]
      exact ih ys seen
    · cases hd : x.ref.digest.isSome with
      | true =>
        simp only [List.cons_append, pinTargets, seenAfter, if_neg hmem, if_pos hd]
        exact ih ys (seen ++ [x.original])
      | false =>
        simp only [List.cons_append, pinTargets, seenAfter, if_neg hmem,
          if_neg (by simp [hd] : ¬x.ref.digest.isSome = true)]
        rw [List.append_eq, ih ys (seen ++ [x.original])]

lemma processRefs_error_inv (gd : Reference → Except String String)
    (hv : ∀ ref d, gd ref = .ok d → validGoDigestChars d.data = true) :
    ∀ (refs : List ImageRef) (seen : List String) (pol : Policy) (e : String),
      processRefs gd refs seen pol = .error e →
      ∃ r, r ∈ pinTargets refs seen ∧ ∃ e₀, gd r.ref = .error e₀ ∧
        e = "failed to get digest for " ++ r.original ++ ": " ++ e₀ := by
  intro refs
  induction refs with
  | nil => intro seen pol e h; cases h
  | cons x rest ih =>
    intro seen pol e h
    by_cases hmem : x.original ∈ seen
    · rw [processRefs, if_pos hmem] at h
      obtain ⟨r, hr, he⟩ := ih seen pol e h
      refine ⟨r, ?_, he⟩
      rw [pinTargets, if_pos hmem]
      exact hr
    · cases hd : x.ref.digest.isSome with
      | true =>
        rw [processRefs, if_neg hmem, if_pos hd] at h
        obtain ⟨r, hr, he⟩ := ih (seen ++ [x.original]) pol e h
        refine ⟨r, ?_, he⟩
        rw [pinTargets, if_neg hmem, if_pos hd]
        exact hr
      | false =>
        rw [processRefs, if_neg hmem, if_neg (by simp [hd])] at h
        cases hgd : gd x.ref with
        | error e₀ =>
          rw [hgd] at h
          dsimp only at h
          injection h with h'
          refine ⟨x, ?_, e₀, hgd, h'.symm⟩
          rw [pinTargets, if_neg hmem, if_neg (by simp [hd])]
          exact List.mem_cons_self x _
        | ok dstr =>
          rw [hgd] at h
          dsimp only at h
          have hval : validGoDigestChars dstr.data = true := hv x.ref dstr hgd
          rw [show parseDigest dstr = .ok dstr from by
            unfold parseDigest; rw [if_pos hval]] at h
          dsimp only at h
          rw [show withDigest x.ref dstr = .ok { x.ref with digest := some dstr } from by
            unfold withDigest; rw [if_pos hval]] at h
          dsimp only at h
          obtain ⟨r, hr, he⟩ := ih (seen ++ [x.original])
            (addPinRule pol x.original (refString { x.ref with digest := some dstr })) e h
          refine ⟨r, ?_, he⟩
          rw [pinTargets, if_neg hmem, if_neg (by simp [hd])]
          exact List.mem_cons_of_mem x hr

lemma genGo_error_inv (parse : String → Except String (List ImageRef))
    (gd : Reference → Except String String)
    (hv : ∀ ref d, gd ref = .ok d → validGoDigestChars d.data = true) :
    ∀ (paths : List String) (seen : List String) (pol : Policy) (e : String),
      generatePolicyGo parse gd paths seen pol = .error e →
      (∃ p, p ∈ paths ∧ ∃ e₀, parse p = .error e₀ ∧
        e = "failed to parse " ++ p ++ ": " ++ e₀) ∨
      (∃ r, r ∈ pinTargets (allRefs parse paths) seen ∧ ∃ e₀, gd r.ref = .error e₀ ∧
        e = "failed to get digest for " ++ r.original ++ ": " ++ e₀) := by
  intro paths
  induction paths with
  | nil => intro seen pol e h; cases h
  | cons q rest ih =>
    intro seen pol e h
    rw [generatePolicyGo] at h
    cases hq : parse q with
    | error e₀ =>
      rw [hq] at h
      dsimp only at h
      injection h with h'
      exact Or.inl ⟨q, List.mem_cons_self q rest, e₀, hq, h'.symm⟩
    | ok rs =>
      rw [hq] at h
      dsimp only at h
      have hall : allRefs parse (q :: rest) = rs ++ allRefs parse rest := by
        unfold allRefs refsOf
        rw [List.map_cons, List.flatten_cons, hq]
      cases hpr : processRefs gd rs seen pol with
      | error e₁ =>
        rw [hpr] at h
        dsimp only at h
        injection h with h'
        obtain ⟨r, hr, e₀, hgd, he⟩ := processRefs_error_inv gd hv rs seen pol e₁ hpr
        refine Or.inr ⟨r, ?_, e₀, hgd, by rw [← h']; exact he⟩
        rw [hall, pinTargets_append]
        exact List.mem_append_left _ hr
      | ok sp =>
        rw [hpr] at h
        dsimp only at h
        rcases ih sp.1 sp.2 e h with hL | hR
        · obtain ⟨p, hp, e₀, hpe, he⟩ := hL
          exact Or.inl ⟨p, List.mem_cons_of_mem q hp, e₀, hpe, he⟩
        · obtain ⟨r, hr, e₀, hgd, he⟩ := hR
          refine Or.inr ⟨r, ?_, e₀, hgd, he⟩
          rw [hall, pinTargets_append]
          apply List.mem_append_right
          rwa [processRefs_ok_seen gd rs seen pol sp hpr] at hr

lemma containsSub_mid4 (a b c d : String) : containsSub b (a ++ b ++ c ++ d) = true := by
  unfold containsSub
  rw [decide_eq_true_eq]
  rw [strDataAppend, strDataAppend, strDataAppend]
  exact ⟨a.data, c.data ++ d.data, by simp⟩

/-- Witness fixture: a parse function failing on every path, as when a
Dockerfile cannot be opened. -/
def fParse : String → Except String (List ImageRef) :=
  fun _ => .error "no such file or directory"

/-- C3: whenever some input Dockerfile fails to parse, or the digest
resolution of some pinned target (a non-skipped reference) fails,
`GeneratePolicy` returns an error whose text carries the offending file
path (for a parse failure) or the offending reference's Original (for a
resolution failure) — and by the return type `Except` the error carries no
policy document at all, so no partial document is ever produced.  The
hypothesis `hv` is the registry client's contract from `GetDigest`: a
successful resolution returns the `String()` of a digest computed by
`manifest.Digest`, which is always a well-formed `algorithm:hex` string,
so neither `digest.Parse` nor `reference.WithDigest` can fail on it. -/
theorem claim3_failfast (parse : String → Except String (List ImageRef))
    (gd : Reference → Except String String) (paths : List String)
    (hv : ∀ ref d, gd ref = .ok d → validGoDigestChars d.data = true)
    (h : (∃ p, p ∈ paths ∧ ∃ e₁, parse p = .error e₁) ∨
         (∃ r, r ∈ pinTargets (allRefs parse paths) [] ∧ ∃ e₁, gd r.ref = .error e₁)) :
    ∃ e, generatePolicy parse gd paths = .error e ∧
      ((∃ p, p ∈ paths ∧ (∃ e₁, parse p = .error e₁) ∧ containsSub p e = true) ∨
       (∃ r, r ∈ pinTargets (allRefs parse paths) [] ∧ (∃ e₁, gd r.ref = .error e₁) ∧
         containsSub r.original e = true)) := by
  have herr : ∃ e, generatePolicy parse gd paths = .error e := by
    by_cases hp : ∃ p, p ∈ paths ∧ ∃ e₁, parse p = .error e₁
    · obtain ⟨p, hpm, hpe⟩ := hp
      obtain ⟨e', he'⟩ := genGo_error_of_parse_error parse gd paths [] { rules := [] } p hpm hpe
      refine ⟨e', ?_⟩
      unfold generatePolicy
      rw [he']
      rfl
    · rcases h with h | h
      · exact absurd h hp
      · obtain ⟨r, hrm, hre⟩ := h
        have hall : ∀ p ∈ paths, ∃ rs, parse p = .ok rs := by
          intro p hpm
          cases hq : parse p with
          | ok rs => exact ⟨rs, rfl⟩
          | error e => exact absurd ⟨p, hpm, e, hq⟩ hp
        obtain ⟨e', he'⟩ := processRefs_error_of_target gd (allRefs parse paths) []
          { rules := [] } r hrm hre
        refine ⟨e', ?_⟩
        unfold generatePolicy
        rw [genGo_flatten parse gd paths [] { rules := [] } hall, he']
        rfl
  obtain ⟨e, he⟩ := herr
  refine ⟨e, he, ?_⟩
  have hgo : generatePolicyGo parse gd paths [] { rules := [] } = .error e := by
    unfold generatePolicy at he
    cases hg : generatePolicyGo parse gd paths [] { rules := [] } with
    | error e' =>
      rw [hg] at he
      injection he with h'
      rw [h']
    | ok sp =>
      rw [hg] at he
      cases he
  rcases genGo_error_inv parse gd hv paths [] { rules := [] } e hgo with hL | hR
  · obtain ⟨p, hp, e₀, hpe, he'⟩ := hL
    refine Or.inl ⟨p, hp, ⟨e₀, hpe⟩, ?_⟩
    rw [he']
    exact containsSub_mid4 "failed to parse " p ": " e₀
  · obtain ⟨r, hr, e₀, hgd, he'⟩ := hR
    refine Or.inr ⟨r, hr, ⟨e₀, hgd⟩, ?_⟩
    rw [he']
    exact containsSub_mid4 "failed to get digest for " r.original ": " e₀

theorem claim3_witness :
    ∃ e, generatePolicy fParse wGd ["Dockerfile"] = .error e ∧
      ((∃ p, p ∈ ["Dockerfile"] ∧ (∃ e₁, fParse p = .error e₁) ∧ containsSub p e = true) ∨
       (∃ r, r ∈ pinTargets (allRefs fParse ["Dockerfile"]) [] ∧
         (∃ e₁, wGd r.ref = .error e₁) ∧ containsSub r.original e = true)) :=
  claim3_failfast fParse wGd ["Dockerfile"]
    (fun ref d hh => by simp only [wGd] at hh; cases hh; decide)
    (Or.inl ⟨"Dockerfile", by simp, "no such file or directory", rfl⟩)

/-- C4: references that already carry a digest are skipped entirely.
First, the run never consults the resolver on a digest-qualified
reference: two resolvers agreeing on all digest-free references produce
identical runs.  Second, an Original whose first occurrence is
digest-qualified receives zero rules in any successful run. -/
theorem claim4_digest_skip (parse : String → Except String (List ImageRef))
    (gd gd' : Reference → Except String String) (paths : List String)
    (hagree : ∀ ref : Reference, ref.digest = none → gd ref = gd' ref) :
    generatePolicy parse gd paths = generatePolicy parse gd' paths ∧
      ∀ pol o r, generatePolicy parse gd paths = .ok pol →
        firstRefFor o (allRefs parse paths) = some r → r.ref.digest.isSome = true →
        countRulesFor pol o = 0 := by
  constructor
  · unfold generatePolicy
    rw [genGo_congr parse gd gd' hagree]
  · intro pol o r hok hf hd
    rw [countRulesFor_pinTargets parse gd paths pol o hok]
    exact filterBeqLenZero _ o (pinTargets_not_mem_of_first_digested _ [] o r hf hd)

theorem claim4_witness :
    generatePolicy dParse wGd ["Dockerfile"] = generatePolicy dParse wGd ["Dockerfile"] ∧
      countRulesFor { rules := [] } dOrig = 0 := by
  obtain ⟨heq, hz⟩ := claim4_digest_skip dParse wGd wGd ["Dockerfile"] (fun _ _ => rfl)
  exact ⟨heq, hz { rules := [] } dOrig dRef (by decide) (by decide) (by decide)⟩

/-- C9: `GeneratePolicy` followed by `WritePolicy` is deterministic: two
runs over the same ordered inputs, with the registry answering every
reference identically, produce byte-identical serialized documents (the
serialization itself is the stable two-space-indented layout fixed by
`writePolicy`). -/
theorem claim9_idempotent (parse : String → Except String (List ImageRef))
    (gd gd' : Reference → Except String String) (paths : List String) (pol pol' : Policy)
    (hagree : ∀ ref : Reference, gd ref = gd' ref)
    (h1 : generatePolicy parse gd paths = .ok pol)
    (h2 : generatePolicy parse gd' paths = .ok pol') :
    writePolicy pol = writePolicy pol' := by
  have hgg : gd = gd' := funext hagree
  subst hgg
  rw [h1] at h2
  cases h2
  rfl

theorem claim9_witness : writePolicy wPol = writePolicy wPol :=
  claim9_idempotent wParse wGd wGd ["Dockerfile"] wPol wPol (fun _ => rfl)
    (by decide) (by decide)
